import Mathlib

/-!
Shallow embedding of the `num-bigint` performance core (files `src/monty.rs`
and `src/bigrand.rs`).

Conventions of the embedding:

* A `BigUint` magnitude is represented by its value, a `Nat`.  The canonical
  little-endian digit vector of a magnitude `n` in digit width `W` has
  `numDigits W n` entries, whose `i`-th entry is `n / (2^W)^i % 2^W`; the
  empty vector represents zero.  A `BigInt` is represented by an `Int`.
* The machine digit `BigDigit` (Rust `u32`/`u64`, a build-time width `W`) is
  a `Nat` reduced mod `2^W` where the code wraps; the Rust
  `SignedDoubleBigDigit` used by the extended GCD is an `Int` (the code's
  double-width type exists exactly so that this computation does not
  overflow).
* Rust panics (out-of-bounds indexing, `assert!` failures) are modelled by
  `Except MontyFail` / explicit failure constructors.
* The external pseudorandom source (`rand::Rng`) is modelled as an infinite
  stream `g : Nat → Nat` of raw words together with a cursor `pos`; drawing
  the `i`-th `u32` yields `g i % 2^32`.  The rejection-sampling loops of
  `bigrand.rs`, which the source runs unboundedly, take an explicit `fuel`
  and answer `timeout` when it runs out.
-/

namespace NumBigint

/-- Outcome of a fallible monty-engine computation: a Rust panic is either an
out-of-bounds index (`n.data[0]` on an empty digit vector) or a failed
`assert!`. -/
inductive MontyFail : Type where
  | outOfBounds : MontyFail
  | assertFail : MontyFail
deriving DecidableEq

/-- Number of digits in the canonical (no trailing zero digit) little-endian
base-`2^W` representation of `n`; the value `n.data.len()` of the external
`BigUint` type.  Zero is the empty digit vector. -/
def numDigits (W n : Nat) : Nat :=
  if n = 0 then 0 else Nat.log (2 ^ W) n + 1

/-- The extended-GCD loop of `inv_mod` (`src/monty.rs` lines 32-43), operating
on Rust `SignedDoubleBigDigit` values, i.e. on `Int`.  One iteration computes
`q = a / b`, `r = a % b` with Rust (truncated) division, then shifts
`(a, b) ← (b, r)` and `(u, w) ← (w, u − q·w)`.  Returns the final `(a, u)`
once `b = 0`. -/
def egcdLoop (a b u w : Int) : Int × Int :=
  if b = 0 then (a, u)
  else egcdLoop b (a.tmod b) w (u - w * (a.tdiv b))
termination_by b.natAbs
decreasing_by
  have habs : ∀ x y : Int, (x.tmod y).natAbs = x.natAbs % y.natAbs := by
    intro x y
    cases x <;> cases y <;>
      simp only [Int.tmod, Int.natAbs_neg, Int.natAbs_ofNat, Int.natAbs_negSucc] <;> rfl
  rw [habs]
  exact Nat.mod_lt _ (Int.natAbs_pos.mpr (by assumption))

/-- Function `inv_mod` (`src/monty.rs` lines 16-48): modular inverse of a digit
modulo `2^W` by extended GCD on `(num, 2^W)`.  The code asserts that `num`
is odd on entry and that the final gcd is `1`; the final coefficient `u` is
downcast (`u as BigDigit`), i.e. taken mod `2^W`. -/
def inv_mod (W num : Nat) : Except MontyFail Nat :=
  if num % 2 = 0 then .error .assertFail
  else
    let p := egcdLoop (num : Int) ((2 ^ W : Nat) : Int) 1 0
    if p.1 = 1 then .ok ((p.2 % ((2 ^ W : Nat) : Int)).toNat) else .error .assertFail

/-- The Montgomery context (`MontyReducer`): the modulus magnitude and the
precomputed inverse of its least-significant digit mod `2^W`. -/
structure MontyReducer : Type where
  n : Nat
  n0inv : Nat

/-- Constructor `MontyReducer::new` (`src/monty.rs` lines 50-55): reads `n.data[0]` —
which panics with an index-out-of-bounds error when the modulus is zero
(empty digit vector) — and runs `inv_mod` on it.  For nonzero `n` the
least-significant digit is `n % 2^W`. -/
def MontyReducer.new (W n : Nat) : Except MontyFail MontyReducer :=
  if numDigits W n = 0 then .error .outOfBounds
  else (inv_mod W (n % 2 ^ W)).map fun i => ⟨n, i⟩

/-- One iteration of the REDC loop (`src/monty.rs` lines 75-81) at digit
index `i`: read digit `c[i] = c / (2^W)^i % 2^W`, form
`q_i = c[i] * mu mod 2^W` (`wrapping_mul`), and multiply-accumulate
`q_i · n` into `c` at digit offset `i` (`mac_digit(&mut c[i..], n, q_i)`,
which at the value level adds `q_i · n · (2^W)^i`). -/
def redcStep (W n mu i c : Nat) : Nat :=
  c + (c / (2 ^ W) ^ i % 2 ^ W * mu % 2 ^ W) * n * (2 ^ W) ^ i

/-- The REDC loop `for i in 0..n_size` applied to the work buffer value `a`:
`redcLoop W n mu a k` performs the steps at indices `0, 1, …, k-1` in
order. -/
def redcLoop (W n mu a : Nat) : Nat → Nat
  | 0 => a
  | i + 1 => redcStep W n mu i (redcLoop W n mu a i)

/-- Function `monty_redc` (`src/monty.rs` lines 61-93).  The buffer resize to
`2·n_size + 2` digits only reserves space (the value is unchanged and the
multiply-accumulate never carries past that size).  `mu` is
`0.wrapping_sub(n0inv)`, the two's-complement negation mod `2^W`.  After the
loop the result candidate is the high half of the buffer — the value shifted
right by `n_size` digits — followed by the single conditional
subtraction. -/
def monty_redc (W : Nat) (mr : MontyReducer) (a : Nat) : Nat :=
  let n_size := numDigits W mr.n
  let mu := (2 ^ W - mr.n0inv % 2 ^ W) % 2 ^ W
  let ret := redcLoop W mr.n mu a n_size / (2 ^ W) ^ n_size
  if ret < mr.n then ret else ret - mr.n

/-- The candidate `R` of `monty_redc`: the high half of the work buffer after
the multiply-accumulate loop, before the conditional subtraction. -/
def redcCandidate (W : Nat) (mr : MontyReducer) (a : Nat) : Nat :=
  redcLoop W mr.n ((2 ^ W - mr.n0inv % 2 ^ W) % 2 ^ W) a (numDigits W mr.n) /
    (2 ^ W) ^ numDigits W mr.n

/-- Function `monty_mult` (`src/monty.rs` lines 96-98). -/
def monty_mult (W a b : Nat) (mr : MontyReducer) : Nat :=
  monty_redc W mr (a * b)

/-- Function `monty_sqr` (`src/monty.rs` lines 101-104). -/
def monty_sqr (W a : Nat) (mr : MontyReducer) : Nat :=
  monty_redc W mr (a * a)

/-- The binary-exponentiation loop of `monty_modpow` (`src/monty.rs` lines
120-126): while `e ≠ 0`, multiply `apri` into `ans` when `e` is odd, square
`apri`, and shift `e` right by one. -/
def montyLoop (W : Nat) (mr : MontyReducer) (e ans apri : Nat) : Nat :=
  if e = 0 then ans
  else
    montyLoop W mr (e / 2)
      (if e % 2 = 1 then monty_mult W ans apri mr else ans)
      (monty_sqr W apri mr)
termination_by e
decreasing_by exact Nat.div_lt_self (Nat.pos_of_ne_zero (by assumption)) one_lt_two

/-- Function `monty_modpow` (`src/monty.rs` lines 106-130).  The Montgomery radix `r`
is built as `modulus.data.len()` zero digits followed by a `1` digit, whose
value is `(2^W)^numDigits W n`; the base is mapped into the Montgomery
domain, the accumulator starts at `r % n`, and the final `monty_redc` maps
the accumulator back to the residue domain. -/
def monty_modpow (W a e n : Nat) : Except MontyFail Nat :=
  (MontyReducer.new W n).map fun mr =>
    let r := (2 ^ W) ^ numDigits W n
    let apri := a * r % n
    let ans := r % n
    monty_redc W mr (montyLoop W mr e ans apri)

/-- Reference modular exponentiation by repeated multiply-and-reduce, the
independent comparison method named by the specification. -/
def refModPow (a n : Nat) : Nat → Nat
  | 0 => 1 % n
  | e + 1 => refModPow a n e * a % n

/-- Outcome of a fuel-limited random sampling computation: `fail` is a Rust
`assert!` panic, `timeout` means the rejection loop's fuel ran out (the
source loops without bound), `ok v` is a returned value. -/
inductive RandResult (α : Type) : Type where
  | fail : RandResult α
  | timeout : RandResult α
  | ok : α → RandResult α
deriving DecidableEq

/-- Map a function over the `ok` value of a `RandResult`. -/
def RandResult.map {α β : Type} (f : α → β) : RandResult α → RandResult β
  | .fail => .fail
  | .timeout => .timeout
  | .ok v => .ok (f v)

/-- One `u32` drawn from the random source `g` at cursor `i` (`rng.fill`
populates each `u32` slot with such a word). -/
def genWord (g : Nat → Nat) (i : Nat) : Nat := g i % 2 ^ 32

/-- Value of `l` filled `u32` words starting at cursor `pos`, little-endian:
word `i` contributes `genWord g (pos+i) · 2^(32·i)`. -/
def wordsVal (g : Nat → Nat) (pos : Nat) : Nat → Nat
  | 0 => 0
  | l + 1 => wordsVal g pos l + genWord g (pos + l) * 2 ^ (32 * l)

/-- Number of `u32` words `gen_biguint` fills for a requested bit size:
`digits + (rem > 0)` (`src/bigrand.rs` lines 49-50). -/
def numWords (bit_size : Nat) : Nat :=
  bit_size / 32 + if bit_size % 32 = 0 then 0 else 1

/-- Function `gen_biguint` (`src/bigrand.rs` lines 48-53) together with `gen_bits`
(lines 37-44): fill `bit_size / 32` words, plus one more when
`rem = bit_size % 32` is nonzero whose excess high bits are cleared by
`data[last] >>= 32 - rem`; the resulting magnitude's value. -/
def gen_biguint (g : Nat → Nat) (pos bit_size : Nat) : Nat :=
  let digits := bit_size / 32
  let rem := bit_size % 32
  if rem = 0 then wordsVal g pos digits
  else wordsVal g pos digits + genWord g (pos + digits) / 2 ^ (32 - rem) * 2 ^ (32 * digits)

/-- Helper for the bit length: structural recursion with fuel (at least the
number itself, since the argument at least halves each step). -/
def bitsAux : Nat → Nat → Nat
  | 0, _ => 0
  | fuel + 1, n => if n = 0 then 0 else bitsAux fuel (n / 2) + 1

/-- The external `BigUint::bits()` collaborator: bit length of a magnitude,
`0` for zero. -/
def biguint_bits (n : Nat) : Nat := bitsAux n n

/-- The rejection loop of `gen_biguint_below` (`src/bigrand.rs` lines
103-108): draw `nbits` random bits; accept the value if it is below `bound`,
otherwise advance the cursor past the consumed words and retry. -/
def belowLoop (g : Nat → Nat) (bound nbits pos : Nat) : Nat → RandResult Nat
  | 0 => .timeout
  | fuel + 1 =>
    if gen_biguint g pos nbits < bound then .ok (gen_biguint g pos nbits)
    else belowLoop g bound nbits (pos + numWords nbits) fuel

/-- Function `gen_biguint_below` (`src/bigrand.rs` lines 100-109):
`assert!(!bound.is_zero())`, then rejection-sample draws of
`bound.bits()` bits. -/
def gen_biguint_below (g : Nat → Nat) (pos bound fuel : Nat) : RandResult Nat :=
  if bound = 0 then .fail
  else belowLoop g bound (biguint_bits bound) pos fuel

/-- Function `gen_biguint_range` (`src/bigrand.rs` lines 111-118):
`assert!(lbound < ubound)`; delegate to `gen_biguint_below ubound` when the
lower bound is zero, otherwise add `lbound` to a draw below
`ubound - lbound`. -/
def gen_biguint_range (g : Nat → Nat) (pos lbound ubound fuel : Nat) : RandResult Nat :=
  if ¬ lbound < ubound then .fail
  else if lbound = 0 then gen_biguint_below g pos ubound fuel
  else (gen_biguint_below g pos (ubound - lbound) fuel).map (lbound + ·)

/-- Function `gen_bigint_range` (`src/bigrand.rs` lines 120-130):
`assert!(lbound < ubound)`; three cases on whether a bound is zero, each
drawing below the magnitude (`natAbs`) of the relevant bound or of the
difference `delta`. -/
def gen_bigint_range (g : Nat → Nat) (pos : Nat) (lbound ubound : Int) (fuel : Nat) :
    RandResult Int :=
  if ¬ lbound < ubound then .fail
  else if lbound = 0 then
    (gen_biguint_below g pos ubound.natAbs fuel).map (fun v : Nat => (v : Int))
  else if ubound = 0 then
    (gen_biguint_below g pos lbound.natAbs fuel).map (fun v : Nat => lbound + (v : Int))
  else
    (gen_biguint_below g pos (ubound - lbound).natAbs fuel).map (fun v : Nat => lbound + (v : Int))

/-- The `UniformBigUint` sampler state (`src/bigrand.rs` lines 134-138): a
base offset and a span length. -/
structure UniformBigUint : Type where
  base : Nat
  len : Nat
deriving DecidableEq

/-- Constructor `UniformBigUint::new` (`src/bigrand.rs` lines 144-150):
`assert!(low < high)` (modelled as `none` on failure), then store
`len = high - low`, `base = low`. -/
def UniformBigUint.new (low high : Nat) : Option UniformBigUint :=
  if low < high then some ⟨low, high - low⟩ else none

/-- Constructor `UniformBigUint::new_inclusive` (`src/bigrand.rs` lines 153-156):
`assert!(low <= high)`, then delegate to `new low (high + 1)`. -/
def UniformBigUint.new_inclusive (low high : Nat) : Option UniformBigUint :=
  if low ≤ high then UniformBigUint.new low (high + 1) else none

/-- Method `UniformBigUint::sample` (`src/bigrand.rs` lines 159-161):
`base + gen_biguint_below len`. -/
def UniformBigUint.sample (u : UniformBigUint) (g : Nat → Nat) (pos fuel : Nat) :
    RandResult Nat :=
  (gen_biguint_below g pos u.len fuel).map (u.base + ·)

/-- The `UniformBigInt` sampler state (`src/bigrand.rs` lines 174-178): a
signed base offset and an unsigned span length. -/
structure UniformBigInt : Type where
  base : Int
  len : Nat
deriving DecidableEq

/-- Constructor `UniformBigInt::new` (`src/bigrand.rs` lines 184-190):
`assert!(low < high)`, then store `len = into_magnitude (high - low)`
(the magnitude of the signed difference) and `base = low`. -/
def UniformBigInt.new (low high : Int) : Option UniformBigInt :=
  if low < high then some ⟨low, (high - low).natAbs⟩ else none

/-- Constructor `UniformBigInt::new_inclusive` (`src/bigrand.rs` lines 193-196):
`assert!(low <= high)`, then delegate to `new low (high + 1)`. -/
def UniformBigInt.new_inclusive (low high : Int) : Option UniformBigInt :=
  if low ≤ high then UniformBigInt.new low (high + 1) else none

/-- Method `UniformBigInt::sample` (`src/bigrand.rs` lines 199-201):
`base + BigInt::from(gen_biguint_below len)`. -/
def UniformBigInt.sample (u : UniformBigInt) (g : Nat → Nat) (pos fuel : Nat) :
    RandResult Int :=
  (gen_biguint_below g pos u.len fuel).map (fun v : Nat => u.base + (v : Int))

/-! ## Properties of the extended-GCD modular inverse -/

/-- The magnitude of a truncated remainder is the remainder of the
magnitudes. -/
theorem natAbs_tmod (x y : Int) : (x.tmod y).natAbs = x.natAbs % y.natAbs := by
  cases x <;> cases y <;>
    simp only [Int.tmod, Int.natAbs_neg, Int.natAbs_ofNat, Int.natAbs_negSucc] <;> rfl

/-- On nonnegative inputs the first component returned by `egcdLoop` is the
gcd of the two inputs. -/
theorem egcdLoop_fst (a b u w : Int) (ha : 0 ≤ a) (hb : 0 ≤ b) :
    (egcdLoop a b u w).1 = (Int.gcd a b : Int) := by
  induction a, b, u, w using egcdLoop.induct with
  | case1 a u w =>
    rw [egcdLoop]
    simp [Int.gcd, Int.natAbs_of_nonneg ha]
  | case2 a b u w hb0 ih =>
    rw [egcdLoop, if_neg hb0]
    rw [ih hb (Int.tmod_nonneg _ ha)]
    congr 1
    show Int.gcd b (a.tmod b) = Int.gcd a b
    unfold Int.gcd
    rw [natAbs_tmod, Nat.gcd_comm b.natAbs, ← Nat.gcd_rec, Nat.gcd_comm]

/-- The loop invariant of `egcdLoop`: if both state components are congruent
to their Bézout coefficient times `d` modulo `m`, so is the final state. -/
theorem egcdLoop_congr (d : Nat) (m a b u w : Int)
    (h1 : a ≡ u * d [ZMOD m]) (h2 : b ≡ w * d [ZMOD m]) :
    (egcdLoop a b u w).1 ≡ (egcdLoop a b u w).2 * d [ZMOD m] := by
  induction a, b, u, w using egcdLoop.induct with
  | case1 a u w =>
    rw [egcdLoop]
    simpa using h1
  | case2 a b u w hb0 ih =>
    rw [egcdLoop, if_neg hb0]
    apply ih h2
    calc a.tmod b = a - b * (a.tdiv b) := Int.tmod_def a b
      _ ≡ u * d - w * d * (a.tdiv b) [ZMOD m] := Int.ModEq.sub h1 (h2.mul_right _)
      _ = (u - w * a.tdiv b) * d := by ring

/-- Function `inv_mod` succeeds on every odd input and returns a digit `r` with
`r * d ≡ 1 (mod 2^W)`. -/
theorem inv_mod_spec (W d : Nat) (hW : 1 ≤ W) (hd : d % 2 = 1) :
    ∃ r, inv_mod W d = .ok r ∧ r * d % 2 ^ W = 1 ∧ r < 2 ^ W := by
  have hodd : Odd d := Nat.odd_iff.mpr hd
  have hcop : Nat.Coprime d (2 ^ W) :=
    Nat.Coprime.pow_right _ (Nat.coprime_two_right.mpr hodd)
  have hm1 : 1 < 2 ^ W := Nat.one_lt_two_pow_iff.mpr (by omega)
  set p := egcdLoop (d : Int) ((2 ^ W : Nat) : Int) 1 0 with hp
  have hfst : p.1 = 1 := by
    rw [hp, egcdLoop_fst _ _ _ _ (Int.natCast_nonneg d) (Int.natCast_nonneg _)]
    rw [Int.gcd_natCast_natCast, hcop]
    rfl
  have hcongr : (1 : Int) ≡ p.2 * d [ZMOD ((2 ^ W : Nat) : Int)] := by
    rw [← hfst, hp]
    apply egcdLoop_congr
    · simp [Int.ModEq]
    · show ((2 ^ W : Nat) : Int) ≡ 0 * d [ZMOD ((2 ^ W : Nat) : Int)]
      simp [Int.ModEq, Int.emod_self]
  have hzpos : (0 : Int) < ((2 ^ W : Nat) : Int) := by positivity
  set r := (p.2 % ((2 ^ W : Nat) : Int)).toNat with hrdef
  have hrcast : (r : Int) = p.2 % ((2 ^ W : Nat) : Int) :=
    Int.toNat_of_nonneg (Int.emod_nonneg _ (by positivity))
  refine ⟨r, ?_, ?_, ?_⟩
  · simp only [inv_mod, hd]
    rw [if_neg (by omega), ← hp, if_pos hfst, ← hrdef]
  · have h2 : (r : Int) * d ≡ p.2 * d [ZMOD ((2 ^ W : Nat) : Int)] := by
      rw [hrcast]
      exact Int.ModEq.mul_right _ (Int.emod_emod_of_dvd _ dvd_rfl)
    have h3 : (r : Int) * d ≡ 1 [ZMOD ((2 ^ W : Nat) : Int)] := h2.trans hcongr.symm
    have h3' : (r : Int) * d % ((2 ^ W : Nat) : Int) = 1 % ((2 ^ W : Nat) : Int) := h3
    have h4 : r * d % 2 ^ W = 1 % 2 ^ W := by exact_mod_cast h3'
    rw [h4, Nat.mod_eq_of_lt hm1]
  · have := Int.emod_lt_of_pos p.2 hzpos
    omega

/-- C3: For every odd digit `d` (and digit width `W ≥ 1`), `inv_mod` returns
a digit `r` with `(r * d) mod 2^W = 1`; for `W = 32` this gives
`inv_mod 32 3 = 2863311531`. -/
theorem claim_C3_inv_mod :
    (∀ W d : Nat, 1 ≤ W → d % 2 = 1 → d < 2 ^ W →
      ∃ r, inv_mod W d = .ok r ∧ r * d % 2 ^ W = 1) ∧
    inv_mod 32 3 = .ok 2863311531 := by
  constructor
  · intro W d hW hd _
    obtain ⟨r, hok, hmul, _⟩ := inv_mod_spec W d hW hd
    exact ⟨r, hok, hmul⟩
  · obtain ⟨r, hok, hmul, hlt⟩ := inv_mod_spec 32 3 (by omega) (by decide)
    have hA : r * 3 ≡ 1 [MOD 2 ^ 32] := by
      unfold Nat.ModEq
      rw [hmul]
      decide
    have hB : (2863311531 * 3 : Nat) ≡ 1 [MOD 2 ^ 32] := by decide
    have h1 : r * (2863311531 * 3) ≡ r * 1 [MOD 2 ^ 32] := hB.mul_left r
    have h2 : r * 3 * 2863311531 ≡ 1 * 2863311531 [MOD 2 ^ 32] := hA.mul_right _
    have h3 : r ≡ 2863311531 [MOD 2 ^ 32] := by
      calc r = r * 1 := (Nat.mul_one r).symm
        _ ≡ r * (2863311531 * 3) [MOD 2 ^ 32] := h1.symm
        _ = r * 3 * 2863311531 := by ring
        _ ≡ 1 * 2863311531 [MOD 2 ^ 32] := h2
        _ = 2863311531 := Nat.one_mul _
    have hr : r = 2863311531 := by
      have h4 : r % 2 ^ 32 = 2863311531 % 2 ^ 32 := h3
      rw [Nat.mod_eq_of_lt hlt] at h4
      rw [h4]
      decide
    rw [← hr]
    exact hok

/-- Witness for C3 at `W = 32`, `d = 3`. -/
theorem claim_C3_inv_mod_witness :
    (1 ≤ 32 ∧ 3 % 2 = 1 ∧ 3 < 2 ^ 32) ∧
    (∃ r, inv_mod 32 3 = .ok r ∧ r * 3 % 2 ^ 32 = 1) :=
  ⟨⟨by decide, by decide, by decide⟩,
    claim_C3_inv_mod.1 32 3 (by decide) (by decide) (by decide)⟩

/-! ## Properties of Montgomery reduction -/

/-- The canonical digit count bounds its number: `n < (2^W)^numDigits W n`. -/
theorem lt_pow_numDigits (W n : Nat) (hW : 1 ≤ W) : n < (2 ^ W) ^ numDigits W n := by
  unfold numDigits
  split
  · rename_i h
    rw [h, pow_zero]
    exact Nat.zero_lt_one
  · exact Nat.lt_pow_succ_log_self (Nat.one_lt_two_pow_iff.mpr (by omega)) n

/-- Key property of the negated inverse digit `mu = 0.wrapping_sub n0inv`:
`1 + mu * n ≡ 0 (mod 2^W)` whenever `n0inv * n ≡ 1 (mod 2^W)`. -/
theorem mu_key (W n n0inv : Nat) (hinv : n0inv * n % 2 ^ W = 1) :
    (1 + (2 ^ W - n0inv % 2 ^ W) % 2 ^ W * n) % 2 ^ W = 0 := by
  have hB1 : 1 < 2 ^ W := by
    rcases Nat.lt_or_ge 1 (2 ^ W) with h | h
    · exact h
    · exfalso
      have hB : 2 ^ W = 1 := le_antisymm h (Nat.one_le_two_pow)
      rw [hB] at hinv
      omega
  set B := 2 ^ W with hBdef
  set mu := (B - n0inv % B) % B with hmu
  have hxle : n0inv % B ≤ B := le_of_lt (Nat.mod_lt _ (by omega))
  have hinv' : (n0inv : Int) * n ≡ 1 [ZMOD (B : Int)] := by
    show (n0inv : Int) * n % B = 1 % B
    have h1 : ((n0inv * n % B : Nat) : Int) = ((1 : Nat) : Int) := by exact_mod_cast hinv
    rw [Int.natCast_mod] at h1
    push_cast at h1 ⊢
    rw [h1]
    rw [Int.emod_eq_of_lt (by omega) (by exact_mod_cast hB1)]
  have hmu' : (mu : Int) ≡ -(n0inv : Int) [ZMOD (B : Int)] := by
    have h2 : (mu : Int) = ((B : Int) - (n0inv % B : Nat)) % (B : Int) := by
      rw [hmu, Int.natCast_mod, Nat.cast_sub hxle]
    calc (mu : Int) = ((B : Int) - (n0inv % B : Nat)) % (B : Int) := h2
      _ ≡ (B : Int) - (n0inv % B : Nat) [ZMOD (B : Int)] := Int.emod_emod_of_dvd _ dvd_rfl
      _ ≡ 0 - (n0inv : Int) [ZMOD (B : Int)] := by
          apply Int.ModEq.sub
          · exact (Int.modEq_zero_iff_dvd).mpr dvd_rfl
          · rw [Int.natCast_mod]
            exact Int.emod_emod_of_dvd _ dvd_rfl
      _ = -(n0inv : Int) := by ring
  have hfin : ((1 + mu * n : Nat) : Int) ≡ 0 [ZMOD (B : Int)] := by
    push_cast
    calc (1 : Int) + mu * n ≡ 1 + -(n0inv : Int) * n [ZMOD (B : Int)] :=
          (hmu'.mul_right _).add_left 1
      _ = 1 - (n0inv : Int) * n := by ring
      _ ≡ 1 - 1 [ZMOD (B : Int)] := Int.ModEq.sub (Int.ModEq.refl 1) hinv'
      _ = 0 := by ring
  have hdvd : (B : Int) ∣ ((1 + mu * n : Nat) : Int) := (Int.modEq_zero_iff_dvd).mp hfin
  have hdvdNat : B ∣ 1 + mu * n := Int.natCast_dvd_natCast.mp hdvd
  have hz : 1 + mu * n ≡ 0 [MOD B] := (Nat.modEq_zero_iff_dvd).mpr hdvdNat
  simpa [Nat.ModEq] using hz

/-- Every REDC iteration adds a multiple of `n` to the work buffer. -/
theorem redcLoop_modeq (W n mu a k : Nat) : redcLoop W n mu a k ≡ a [MOD n] := by
  induction k with
  | zero => rfl
  | succ i ih =>
    show redcStep W n mu i (redcLoop W n mu a i) ≡ a [MOD n]
    unfold redcStep
    refine Nat.ModEq.trans ?_ ih
    show (redcLoop W n mu a i +
        (redcLoop W n mu a i / (2 ^ W) ^ i % 2 ^ W * mu % 2 ^ W) * n * (2 ^ W) ^ i) % n
      = redcLoop W n mu a i % n
    have h1 : (redcLoop W n mu a i / (2 ^ W) ^ i % 2 ^ W * mu % 2 ^ W) * n * (2 ^ W) ^ i
        = n * (redcLoop W n mu a i / (2 ^ W) ^ i % 2 ^ W * mu % 2 ^ W * (2 ^ W) ^ i) := by
      ring
    rw [h1, Nat.add_mul_mod_self_left]

/-- Growth bound for the REDC loop: every iteration adds at most
`(2^W - 1) · n · (2^W)^i`. -/
theorem redcLoop_lt (W n mu a k : Nat) (hn : 0 < n) :
    redcLoop W n mu a k < a + (2 ^ W) ^ k * n := by
  induction k with
  | zero =>
    simp only [redcLoop, pow_zero, one_mul]
    omega
  | succ i ih =>
    show redcStep W n mu i (redcLoop W n mu a i) < a + (2 ^ W) ^ (i + 1) * n
    unfold redcStep
    set c := redcLoop W n mu a i
    set q := c / (2 ^ W) ^ i % 2 ^ W * mu % 2 ^ W with hq
    have hqB : q < 2 ^ W := Nat.mod_lt _ (Nat.pos_pow_of_pos W (by omega))
    have h3 : (2 ^ W) ^ i * n + q * n * (2 ^ W) ^ i = (q + 1) * (n * (2 ^ W) ^ i) := by ring
    have h4 : (q + 1) * (n * (2 ^ W) ^ i) ≤ 2 ^ W * (n * (2 ^ W) ^ i) :=
      Nat.mul_le_mul_right _ hqB
    have h5 : 2 ^ W * (n * (2 ^ W) ^ i) = (2 ^ W) ^ (i + 1) * n := by ring
    omega

/-- Divisibility invariant of the REDC loop: after `k` iterations the low `k`
digits of the work buffer are zero. -/
theorem redcLoop_dvd (W n mu a k : Nat) (hmu : (1 + mu * n) % 2 ^ W = 0) :
    (2 ^ W) ^ k ∣ redcLoop W n mu a k := by
  induction k with
  | zero => simp [redcLoop]
  | succ i ih =>
    obtain ⟨t, ht⟩ := ih
    have hBpos : (0 : Nat) < (2 ^ W) ^ i := Nat.pos_pow_of_pos i (by positivity)
    show (2 ^ W) ^ (i + 1) ∣ redcStep W n mu i (redcLoop W n mu a i)
    unfold redcStep
    rw [ht, Nat.mul_div_cancel_left t hBpos]
    have hfac : (2 ^ W) ^ i * t + (t % 2 ^ W * mu % 2 ^ W) * n * (2 ^ W) ^ i
        = (2 ^ W) ^ i * (t + t % 2 ^ W * mu % 2 ^ W * n) := by ring
    rw [hfac, pow_succ]
    apply Nat.mul_dvd_mul_left
    have e1 : t % 2 ^ W ≡ t [MOD 2 ^ W] := Nat.mod_modEq t _
    have e2 : t % 2 ^ W * mu % 2 ^ W ≡ t % 2 ^ W * mu [MOD 2 ^ W] := Nat.mod_modEq _ _
    have e3 : t + t % 2 ^ W * mu % 2 ^ W * n ≡ t % 2 ^ W + t % 2 ^ W * mu * n [MOD 2 ^ W] :=
      Nat.ModEq.add e1.symm (e2.mul_right n)
    have e4 : t % 2 ^ W + t % 2 ^ W * mu * n = t % 2 ^ W * (1 + mu * n) := by ring
    have e5 : t % 2 ^ W * (1 + mu * n) ≡ t % 2 ^ W * 0 [MOD 2 ^ W] := by
      apply Nat.ModEq.mul_left
      show (1 + mu * n) % 2 ^ W = 0 % 2 ^ W
      rw [hmu]
      exact (Nat.zero_mod _).symm
    have e6 : t + t % 2 ^ W * mu % 2 ^ W * n ≡ 0 [MOD 2 ^ W] := by
      refine e3.trans ?_
      rw [e4]
      simpa using e5
    exact (Nat.modEq_zero_iff_dvd).mp e6

/-- Correctness of `monty_redc` for a Montgomery context whose `n0inv` digit
inverts the modulus mod `2^W`: for inputs below `n · (2^W)^len(n)` the
candidate is below `2n` and the returned value `v` is below `n` with
`v · (2^W)^len(n) ≡ input (mod n)`. -/
theorem monty_redc_spec (W : Nat) (mr : MontyReducer) (a : Nat)
    (hn : 0 < mr.n) (hinv : mr.n0inv * mr.n % 2 ^ W = 1)
    (ha : a < mr.n * (2 ^ W) ^ numDigits W mr.n) :
    monty_redc W mr a < mr.n ∧
    monty_redc W mr a * (2 ^ W) ^ numDigits W mr.n ≡ a [MOD mr.n] ∧
    redcCandidate W mr a < 2 * mr.n := by
  have hmu := mu_key W mr.n mr.n0inv hinv
  set k := numDigits W mr.n with hk
  set mu := (2 ^ W - mr.n0inv % 2 ^ W) % 2 ^ W with hmudef
  set c := redcLoop W mr.n mu a k with hc
  have hBk : (0 : Nat) < (2 ^ W) ^ k := Nat.pos_pow_of_pos k (by positivity)
  have hdvd : (2 ^ W) ^ k ∣ c := redcLoop_dvd W mr.n mu a k hmu
  have hclt : c < a + (2 ^ W) ^ k * mr.n := redcLoop_lt W mr.n mu a k hn
  have hR : c / (2 ^ W) ^ k < 2 * mr.n := by
    rw [Nat.div_lt_iff_lt_mul hBk]
    have h1 : a + (2 ^ W) ^ k * mr.n ≤ 2 * mr.n * (2 ^ W) ^ k := by
      have h2 : mr.n * (2 ^ W) ^ k + (2 ^ W) ^ k * mr.n = 2 * mr.n * (2 ^ W) ^ k := by ring
      omega
    omega
  have hRBk : c / (2 ^ W) ^ k * (2 ^ W) ^ k = c := Nat.div_mul_cancel hdvd
  have hceq : c ≡ a [MOD mr.n] := redcLoop_modeq W mr.n mu a k
  have hcand : redcCandidate W mr a = c / (2 ^ W) ^ k := rfl
  have hbody : monty_redc W mr a =
      if c / (2 ^ W) ^ k < mr.n then c / (2 ^ W) ^ k else c / (2 ^ W) ^ k - mr.n := rfl
  refine ⟨?_, ?_, ?_⟩
  · rw [hbody]
    split
    · assumption
    · omega
  · rw [hbody]
    split
    · rw [hRBk]
      exact hceq
    · rename_i hge
      have hsub : (c / (2 ^ W) ^ k - mr.n) * (2 ^ W) ^ k + mr.n * (2 ^ W) ^ k
          = c / (2 ^ W) ^ k * (2 ^ W) ^ k := by
        rw [← Nat.add_mul, Nat.sub_add_cancel (by omega)]
      have hstep : (c / (2 ^ W) ^ k - mr.n) * (2 ^ W) ^ k ≡ c [MOD mr.n] := by
        have h6 : (c / (2 ^ W) ^ k - mr.n) * (2 ^ W) ^ k
            ≡ (c / (2 ^ W) ^ k - mr.n) * (2 ^ W) ^ k + mr.n * (2 ^ W) ^ k [MOD mr.n] := by
          show _ % mr.n = _ % mr.n
          rw [Nat.add_mul_mod_self_left]
        rw [hsub, hRBk] at h6
        exact h6
      exact hstep.trans hceq
  · rw [hcand]
    exact hR

/-- Constructor `MontyReducer::new` succeeds on every odd nonzero modulus and its
`n0inv` field inverts the modulus mod `2^W`. -/
theorem MontyReducer.new_spec (W n : Nat) (hW : 1 ≤ W) (hodd : n % 2 = 1) (hn : 0 < n) :
    ∃ i, MontyReducer.new W n = .ok ⟨n, i⟩ ∧ i * n % 2 ^ W = 1 ∧ i < 2 ^ W := by
  have hd : n % 2 ^ W % 2 = 1 := by
    rw [Nat.mod_mod_of_dvd n (dvd_pow_self 2 (by omega))]
    exact hodd
  obtain ⟨r, hok, hmul, hlt⟩ := inv_mod_spec W (n % 2 ^ W) hW hd
  have hrn : r * n % 2 ^ W = 1 := by
    have h1 : r * (n % 2 ^ W) ≡ r * n [MOD 2 ^ W] := (Nat.mod_modEq n _).mul_left r
    have h2 : r * (n % 2 ^ W) % 2 ^ W = r * n % 2 ^ W := h1
    rw [← h2, hmul]
  refine ⟨r, ?_, hrn, hlt⟩
  rw [MontyReducer.new, if_neg ?side, hok]
  · rfl
  · unfold numDigits
    rw [if_neg (by omega)]
    omega

/-- C2: For every odd nonzero modulus `n` (digit width `W ≥ 1`) and every
input magnitude `c < n · (2^W)^len(n)`, the reducer construction succeeds,
the REDC candidate `R` lies in `[0, 2n)`, and `monty_redc` returns `v < n`
with `v · (2^W)^len(n) ≡ c (mod n)`. -/
theorem claim_C2_monty_redc (W n c : Nat) (hW : 1 ≤ W) (hodd : n % 2 = 1) (hn : 0 < n)
    (hc : c < n * (2 ^ W) ^ numDigits W n) :
    ∃ mr : MontyReducer, MontyReducer.new W n = .ok mr ∧ mr.n = n ∧
      redcCandidate W mr c < 2 * n ∧
      monty_redc W mr c < n ∧
      monty_redc W mr c * (2 ^ W) ^ numDigits W n ≡ c [MOD n] := by
  obtain ⟨i, hok, hinv, _⟩ := MontyReducer.new_spec W n hW hodd hn
  obtain ⟨h1, h2, h3⟩ := monty_redc_spec W ⟨n, i⟩ c hn hinv hc
  exact ⟨⟨n, i⟩, hok, rfl, h3, h1, h2⟩

/-- Witness for C2 at `W = 32`, `n = 497`, `c = 123456`. -/
theorem claim_C2_monty_redc_witness :
    (1 ≤ 32 ∧ 497 % 2 = 1 ∧ 0 < 497 ∧ 123456 < 497 * (2 ^ 32) ^ numDigits 32 497) ∧
    ∃ mr : MontyReducer, MontyReducer.new 32 497 = .ok mr ∧ mr.n = 497 ∧
      redcCandidate 32 mr 123456 < 2 * 497 ∧
      monty_redc 32 mr 123456 < 497 ∧
      monty_redc 32 mr 123456 * (2 ^ 32) ^ numDigits 32 497 ≡ 123456 [MOD 497] :=
  ⟨⟨by decide, by decide, by decide, by
      have h : numDigits 32 497 = 1 := by
        unfold numDigits
        rw [if_neg (by omega), Nat.log_eq_zero_iff.mpr (Or.inl (by norm_num))]
      rw [h]
      decide⟩,
    claim_C2_monty_redc 32 497 123456 (by decide) (by decide) (by decide) (by
      have h : numDigits 32 497 = 1 := by
        unfold numDigits
        rw [if_neg (by omega), Nat.log_eq_zero_iff.mpr (Or.inl (by norm_num))]
      rw [h]
      decide)⟩

/-! ## Properties of Montgomery exponentiation -/

/-- Invariant of the binary-exponentiation loop: starting from accumulator
`ans` and Montgomery-domain base `apri`, both below `n`, the loop's result is
below `n` and satisfies `result · R^e ≡ ans · apri^e (mod n)` where
`R = (2^W)^len(n)` is the Montgomery radix. -/
theorem montyLoop_spec (W : Nat) (mr : MontyReducer) (hn : 0 < mr.n)
    (hinv : mr.n0inv * mr.n % 2 ^ W = 1)
    (hnk : mr.n < (2 ^ W) ^ numDigits W mr.n)
    (e ans apri : Nat) : ans < mr.n → apri < mr.n →
    montyLoop W mr e ans apri < mr.n ∧
    montyLoop W mr e ans apri * ((2 ^ W) ^ numDigits W mr.n) ^ e
      ≡ ans * apri ^ e [MOD mr.n] := by
  have hmul : ∀ x y : Nat, x < mr.n → y < mr.n →
      monty_redc W mr (x * y) < mr.n ∧
      monty_redc W mr (x * y) * (2 ^ W) ^ numDigits W mr.n ≡ x * y [MOD mr.n] := by
    intro x y hx hy
    have hxy : x * y < mr.n * (2 ^ W) ^ numDigits W mr.n :=
      lt_of_lt_of_le (Nat.mul_lt_mul'' hx hy) (Nat.mul_le_mul_left _ (le_of_lt hnk))
    obtain ⟨h1, h2, _⟩ := monty_redc_spec W mr (x * y) hn hinv hxy
    exact ⟨h1, h2⟩
  induction e, ans, apri using montyLoop.induct W mr with
  | case1 ans apri =>
    intro hans _
    have h0 : montyLoop W mr 0 ans apri = ans := by
      rw [montyLoop]
      simp
    rw [h0]
    refine ⟨hans, ?_⟩
    simp only [pow_zero, mul_one]
    exact Nat.ModEq.refl ans
  | case2 e ans apri he ih =>
    intro hans hapri
    have hA : (if e % 2 = 1 then monty_mult W ans apri mr else ans) < mr.n := by
      split
      · exact (hmul ans apri hans hapri).1
      · exact hans
    have hS : monty_sqr W apri mr < mr.n := (hmul apri apri hapri hapri).1
    obtain ⟨ih1, ih2⟩ := ih hA hS
    constructor
    · rw [montyLoop, if_neg he]
      exact ih1
    · rw [montyLoop, if_neg he]
      have hS2 : monty_sqr W apri mr * (2 ^ W) ^ numDigits W mr.n
          ≡ apri * apri [MOD mr.n] := (hmul apri apri hapri hapri).2
      by_cases hpar : e % 2 = 1
      · rw [dif_pos hpar] at ih2
        rw [if_pos hpar]
        have hA2 : monty_mult W ans apri mr * (2 ^ W) ^ numDigits W mr.n
            ≡ ans * apri [MOD mr.n] := (hmul ans apri hans hapri).2
        obtain ⟨f, hf⟩ : ∃ f, e / 2 = f := ⟨e / 2, rfl⟩
        have he2 : e = 2 * f + 1 := by omega
        subst he2
        rw [hf] at ih2 ⊢
        calc montyLoop W mr f (monty_mult W ans apri mr) (monty_sqr W apri mr)
              * ((2 ^ W) ^ numDigits W mr.n) ^ (2 * f + 1)
            = montyLoop W mr f (monty_mult W ans apri mr) (monty_sqr W apri mr)
              * ((2 ^ W) ^ numDigits W mr.n) ^ f
              * ((2 ^ W) ^ numDigits W mr.n) ^ (f + 1) := by ring
          _ ≡ monty_mult W ans apri mr * (monty_sqr W apri mr) ^ f
              * ((2 ^ W) ^ numDigits W mr.n) ^ (f + 1) [MOD mr.n] := ih2.mul_right _
          _ = (monty_mult W ans apri mr * (2 ^ W) ^ numDigits W mr.n)
              * (monty_sqr W apri mr * (2 ^ W) ^ numDigits W mr.n) ^ f := by ring
          _ ≡ (ans * apri) * (apri * apri) ^ f [MOD mr.n] :=
              Nat.ModEq.mul hA2 (hS2.pow _)
          _ = ans * apri ^ (2 * f + 1) := by ring
      · rw [dif_neg hpar] at ih2
        rw [if_neg hpar]
        obtain ⟨f, hf⟩ : ∃ f, e / 2 = f := ⟨e / 2, rfl⟩
        have he2 : e = 2 * f := by omega
        subst he2
        rw [hf] at ih2 ⊢
        calc montyLoop W mr f ans (monty_sqr W apri mr)
              * ((2 ^ W) ^ numDigits W mr.n) ^ (2 * f)
            = montyLoop W mr f ans (monty_sqr W apri mr)
              * ((2 ^ W) ^ numDigits W mr.n) ^ f
              * ((2 ^ W) ^ numDigits W mr.n) ^ f := by ring
          _ ≡ ans * (monty_sqr W apri mr) ^ f
              * ((2 ^ W) ^ numDigits W mr.n) ^ f [MOD mr.n] := ih2.mul_right _
          _ = ans * (monty_sqr W apri mr * (2 ^ W) ^ numDigits W mr.n) ^ f := by ring
          _ ≡ ans * (apri * apri) ^ f [MOD mr.n] := (hS2.pow _).mul_left ans
          _ = ans * apri ^ (2 * f) := by ring

/-- The reference method agrees with `a^e mod n`. -/
theorem refModPow_eq (a n : Nat) (hn : 0 < n) : ∀ e, refModPow a n e = a ^ e % n := by
  intro e
  induction e with
  | zero => simp [refModPow]
  | succ i ih => rw [refModPow, ih, pow_succ, Nat.mod_mul_mod]

/-- Full functional correctness of `monty_modpow` for an odd positive
modulus: it returns `a^e mod n`. -/
theorem monty_modpow_spec (W a e n : Nat) (hW : 1 ≤ W) (hodd : n % 2 = 1) (hn : 0 < n) :
    monty_modpow W a e n = .ok (a ^ e % n) := by
  obtain ⟨i, hok, hinv, _⟩ := MontyReducer.new_spec W n hW hodd hn
  have hnk : (⟨n, i⟩ : MontyReducer).n < (2 ^ W) ^ numDigits W (⟨n, i⟩ : MontyReducer).n :=
    lt_pow_numDigits W n hW
  have hRpos : 0 < (2 ^ W) ^ numDigits W n := Nat.pos_pow_of_pos _ (by positivity)
  have hans0 : (2 ^ W) ^ numDigits W n % n < n := Nat.mod_lt _ hn
  have hapri0 : a * (2 ^ W) ^ numDigits W n % n < n := Nat.mod_lt _ hn
  obtain ⟨hres1, hres2⟩ := montyLoop_spec W ⟨n, i⟩ hn hinv hnk e
    ((2 ^ W) ^ numDigits W n % n) (a * (2 ^ W) ^ numDigits W n % n) hans0 hapri0
  set res := montyLoop W (⟨n, i⟩ : MontyReducer) e
    ((2 ^ W) ^ numDigits W n % n) (a * (2 ^ W) ^ numDigits W n % n) with hresdef
  have hresn : res < (⟨n, i⟩ : MontyReducer).n * (2 ^ W) ^ numDigits W (⟨n, i⟩ : MontyReducer).n :=
    lt_of_lt_of_le hres1 (Nat.le_mul_of_pos_right _ hRpos)
  obtain ⟨hv1, hv2, _⟩ := monty_redc_spec W ⟨n, i⟩ res hn hinv hresn
  set v := monty_redc W (⟨n, i⟩ : MontyReducer) res with hvdef
  have hchain : v * ((2 ^ W) ^ numDigits W n) ^ (e + 1)
      ≡ a ^ e * ((2 ^ W) ^ numDigits W n) ^ (e + 1) [MOD n] := by
    calc v * ((2 ^ W) ^ numDigits W n) ^ (e + 1)
        = (v * (2 ^ W) ^ numDigits W n) * ((2 ^ W) ^ numDigits W n) ^ e := by ring
      _ ≡ res * ((2 ^ W) ^ numDigits W n) ^ e [MOD n] := hv2.mul_right _
      _ ≡ ((2 ^ W) ^ numDigits W n % n) * (a * (2 ^ W) ^ numDigits W n % n) ^ e [MOD n] := hres2
      _ ≡ (2 ^ W) ^ numDigits W n * (a * (2 ^ W) ^ numDigits W n) ^ e [MOD n] :=
          Nat.ModEq.mul (Nat.mod_modEq _ n) ((Nat.mod_modEq _ n).pow e)
      _ = a ^ e * ((2 ^ W) ^ numDigits W n) ^ (e + 1) := by ring
  have hcop : Nat.Coprime ((2 ^ W) ^ numDigits W n) n :=
    Nat.Coprime.pow_left _ (Nat.Coprime.pow_left _
      (Nat.coprime_two_left.mpr (Nat.odd_iff.mpr hodd)))
  have hcop2 : Nat.gcd n (((2 ^ W) ^ numDigits W n) ^ (e + 1)) = 1 :=
    (Nat.Coprime.pow_left (e + 1) hcop).symm
  have hcancel : v ≡ a ^ e [MOD n] := by
    have h' : ((2 ^ W) ^ numDigits W n) ^ (e + 1) * v
        ≡ ((2 ^ W) ^ numDigits W n) ^ (e + 1) * a ^ e [MOD n] := by
      calc ((2 ^ W) ^ numDigits W n) ^ (e + 1) * v
          = v * ((2 ^ W) ^ numDigits W n) ^ (e + 1) := by ring
        _ ≡ a ^ e * ((2 ^ W) ^ numDigits W n) ^ (e + 1) [MOD n] := hchain
        _ = ((2 ^ W) ^ numDigits W n) ^ (e + 1) * a ^ e := by ring
    exact Nat.ModEq.cancel_left_of_coprime hcop2 h'
  have hveq : v = a ^ e % n := by
    have h1 : v % n = a ^ e % n := hcancel
    rwa [Nat.mod_eq_of_lt hv1] at h1
  rw [monty_modpow, hok]
  show Except.ok _ = Except.ok _
  rw [← hveq]

/-- C1: For every digit width `W ≥ 1`, odd modulus `n ≥ 3`, base `a < n` and
exponent `e`, `monty_modpow a e n` equals `a^e mod n`, both directly and as
computed by the independent repeated multiply-and-reduce reference; in
particular `monty_modpow 4 13 497 = 445`. -/
theorem claim_C1_monty_modpow :
    (∀ W a e n : Nat, 1 ≤ W → n % 2 = 1 → 3 ≤ n → a < n →
      monty_modpow W a e n = .ok (a ^ e % n) ∧
      monty_modpow W a e n = .ok (refModPow a n e)) ∧
    monty_modpow 32 4 13 497 = .ok 445 := by
  constructor
  · intro W a e n hW hodd h3 _
    refine ⟨monty_modpow_spec W a e n hW hodd (by omega), ?_⟩
    rw [monty_modpow_spec W a e n hW hodd (by omega), refModPow_eq a n (by omega) e]
  · rw [monty_modpow_spec 32 4 13 497 (by omega) (by decide) (by omega)]
    norm_num

/-- Witness for C1 at `W = 32`, `a = 4`, `e = 13`, `n = 497`. -/
theorem claim_C1_monty_modpow_witness :
    (1 ≤ 32 ∧ 497 % 2 = 1 ∧ 3 ≤ 497 ∧ 4 < 497) ∧
    monty_modpow 32 4 13 497 = .ok (4 ^ 13 % 497) :=
  ⟨⟨by decide, by decide, by decide, by decide⟩,
    (claim_C1_monty_modpow.1 32 4 13 497 (by decide) (by decide) (by decide) (by decide)).1⟩

/-- C10: Calling `monty_modpow` with a zero modulus (the empty digit vector)
fails at context construction with the out-of-bounds digit lookup
`n.data[0]` inside `MontyReducer::new`, not through a documented error. -/
theorem claim_C10_zero_modulus (W a e : Nat) :
    MontyReducer.new W 0 = .error .outOfBounds ∧
    monty_modpow W a e 0 = .error .outOfBounds := by
  have hnew : MontyReducer.new W 0 = .error .outOfBounds := by
    rw [MontyReducer.new, if_pos]
    unfold numDigits
    simp
  refine ⟨hnew, ?_⟩
  rw [monty_modpow, hnew]
  rfl

/-! ## Properties of the random generation layer -/

/-- Mapping over a `RandResult` produces `fail` exactly from `fail`. -/
theorem RandResult.map_eq_fail {α β : Type} (f : α → β) (x : RandResult α) :
    x.map f = .fail ↔ x = .fail := by
  cases x <;> simp [RandResult.map]

/-- Mapping over a `RandResult` produces `ok v` exactly from an `ok u` with `v = f u`. -/
theorem RandResult.map_eq_ok {α β : Type} (f : α → β) (x : RandResult α) (v : β) :
    x.map f = .ok v ↔ ∃ u, x = .ok u ∧ v = f u := by
  cases x <;> simp [RandResult.map]
  exact eq_comm

/-- Any value accepted by the rejection loop is below the bound. -/
theorem belowLoop_ok (g : Nat → Nat) (bound nbits : Nat) :
    ∀ fuel pos v, belowLoop g bound nbits pos fuel = .ok v → v < bound := by
  intro fuel
  induction fuel with
  | zero =>
    intro pos v h
    simp [belowLoop] at h
  | succ f ih =>
    intro pos v h
    rw [belowLoop] at h
    split at h
    · cases h
      assumption
    · exact ih _ v h

/-- The rejection loop never raises the zero-bound assertion. -/
theorem belowLoop_ne_fail (g : Nat → Nat) (bound nbits : Nat) :
    ∀ fuel pos, belowLoop g bound nbits pos fuel ≠ .fail := by
  intro fuel
  induction fuel with
  | zero =>
    intro pos h
    simp [belowLoop] at h
  | succ f ih =>
    intro pos h
    rw [belowLoop] at h
    split at h
    · cases h
    · exact ih _ h

/-- Failure analysis of `gen_biguint_below`: `fail` happens exactly on a
zero bound, and every accepted value is strictly below the bound. -/
theorem gen_biguint_below_spec (g : Nat → Nat) (pos bound fuel : Nat) :
    (gen_biguint_below g pos bound fuel = .fail ↔ bound = 0) ∧
    (∀ v, gen_biguint_below g pos bound fuel = .ok v → v < bound) := by
  constructor
  · unfold gen_biguint_below
    split
    · simp [*]
    · simp [*]
      exact belowLoop_ne_fail g bound (biguint_bits bound) fuel pos
  · intro v h
    unfold gen_biguint_below at h
    split at h
    · cases h
    · exact belowLoop_ok g bound (biguint_bits bound) fuel pos v h

/-- C4: `gen_biguint_below` fails exactly on a zero bound; whenever it
returns a value, that value is strictly below the bound; and on a nonzero
bound it is exactly the rejection-sampling loop over draws of
`bitlength(bound)` bits. -/
theorem claim_C4_gen_biguint_below (g : Nat → Nat) (pos bound fuel : Nat) :
    (gen_biguint_below g pos bound fuel = .fail ↔ bound = 0) ∧
    (∀ v, gen_biguint_below g pos bound fuel = .ok v → v < bound) ∧
    (bound ≠ 0 → gen_biguint_below g pos bound fuel =
      belowLoop g bound (biguint_bits bound) pos fuel) := by
  refine ⟨(gen_biguint_below_spec g pos bound fuel).1,
    (gen_biguint_below_spec g pos bound fuel).2, ?_⟩
  intro hb
  unfold gen_biguint_below
  rw [if_neg hb]

/-- Witness for C4: with the all-zero random source and bound `1`, the draw
`0` is accepted at once. -/
theorem claim_C4_witness :
    gen_biguint_below (fun _ => 0) 0 1 1 = .ok 0 ∧ (0 : Nat) < 1 :=
  ⟨by decide, (claim_C4_gen_biguint_below (fun _ => 0) 0 1 1).2.1 0 (by decide)⟩

/-- The value of `l` filled words is below `2^(32·l)`. -/
theorem wordsVal_lt (g : Nat → Nat) (pos : Nat) : ∀ l, wordsVal g pos l < 2 ^ (32 * l) := by
  intro l
  induction l with
  | zero => simp [wordsVal]
  | succ i ih =>
    have hw : genWord g (pos + i) < 2 ^ 32 := Nat.mod_lt _ (by positivity)
    calc wordsVal g pos (i + 1)
        = wordsVal g pos i + genWord g (pos + i) * 2 ^ (32 * i) := rfl
      _ < 2 ^ (32 * i) + genWord g (pos + i) * 2 ^ (32 * i) := by omega
      _ = (genWord g (pos + i) + 1) * 2 ^ (32 * i) := by ring
      _ ≤ 2 ^ 32 * 2 ^ (32 * i) := Nat.mul_le_mul_right _ hw
      _ = 2 ^ (32 * (i + 1)) := by ring

/-- C5: `gen_biguint` always produces a value in `[0, 2^bit_size)`: when the
bit size is not a multiple of 32 the top filled word is right-shifted by
`32 - rem`, so no value with more than `bit_size` significant bits can
appear. -/
theorem claim_C5_gen_biguint (g : Nat → Nat) (pos bit_size : Nat) :
    gen_biguint g pos bit_size < 2 ^ bit_size := by
  unfold gen_biguint
  dsimp only
  have hsplit : 32 * (bit_size / 32) + bit_size % 32 = bit_size := Nat.div_add_mod bit_size 32
  split
  · rename_i hrem
    calc wordsVal g pos (bit_size / 32) < 2 ^ (32 * (bit_size / 32)) :=
          wordsVal_lt g pos (bit_size / 32)
      _ = 2 ^ bit_size := by
          congr 1
          omega
  · rename_i hrem
    have hremlt : bit_size % 32 < 32 := Nat.mod_lt _ (by omega)
    have hshift : genWord g (pos + bit_size / 32) / 2 ^ (32 - bit_size % 32)
        < 2 ^ (bit_size % 32) := by
      rw [Nat.div_lt_iff_lt_mul (Nat.pos_pow_of_pos _ (by omega))]
      have hw : genWord g (pos + bit_size / 32) < 2 ^ 32 := Nat.mod_lt _ (by positivity)
      have hpow : 2 ^ (bit_size % 32) * 2 ^ (32 - bit_size % 32) = 2 ^ 32 := by
        rw [← pow_add]
        congr 1
        omega
      omega
    have h := wordsVal_lt g pos (bit_size / 32)
    have hfin : wordsVal g pos (bit_size / 32) +
        genWord g (pos + bit_size / 32) / 2 ^ (32 - bit_size % 32) * 2 ^ (32 * (bit_size / 32))
        < 2 ^ (bit_size % 32) * 2 ^ (32 * (bit_size / 32)) := by
      have hstep : wordsVal g pos (bit_size / 32) +
          genWord g (pos + bit_size / 32) / 2 ^ (32 - bit_size % 32) * 2 ^ (32 * (bit_size / 32))
          < (genWord g (pos + bit_size / 32) / 2 ^ (32 - bit_size % 32) + 1)
            * 2 ^ (32 * (bit_size / 32)) := by
        have hx : (genWord g (pos + bit_size / 32) / 2 ^ (32 - bit_size % 32) + 1)
            * 2 ^ (32 * (bit_size / 32))
            = genWord g (pos + bit_size / 32) / 2 ^ (32 - bit_size % 32)
              * 2 ^ (32 * (bit_size / 32)) + 2 ^ (32 * (bit_size / 32)) := by ring
        omega
      have hmul : (genWord g (pos + bit_size / 32) / 2 ^ (32 - bit_size % 32) + 1)
          * 2 ^ (32 * (bit_size / 32))
          ≤ 2 ^ (bit_size % 32) * 2 ^ (32 * (bit_size / 32)) :=
        Nat.mul_le_mul_right _ hshift
      omega
    have hpow2 : 2 ^ (bit_size % 32) * 2 ^ (32 * (bit_size / 32)) = 2 ^ bit_size := by
      rw [← pow_add]
      congr 1
      omega
    omega

/-- C6: `gen_biguint_range` fails exactly when `lo ≥ hi`; every returned
value `v` satisfies `lo ≤ v < hi`; with `lo = 0` it delegates directly to
`gen_biguint_below hi`, and otherwise it adds `lo` to a draw below
`hi - lo`. -/
theorem claim_C6_gen_biguint_range (g : Nat → Nat) (pos lo hi fuel : Nat) :
    (gen_biguint_range g pos lo hi fuel = .fail ↔ hi ≤ lo) ∧
    (∀ v, gen_biguint_range g pos lo hi fuel = .ok v → lo ≤ v ∧ v < hi) ∧
    (lo = 0 → lo < hi →
      gen_biguint_range g pos lo hi fuel = gen_biguint_below g pos hi fuel) ∧
    (lo ≠ 0 → lo < hi →
      gen_biguint_range g pos lo hi fuel =
        (gen_biguint_below g pos (hi - lo) fuel).map (lo + ·)) := by
  refine ⟨?_, ?_, ?_, ?_⟩
  · unfold gen_biguint_range
    split
    · simp
      omega
    · rename_i hlt
      split
      · rename_i hlo
        rw [(gen_biguint_below_spec g pos hi fuel).1]
        omega
      · rw [RandResult.map_eq_fail, (gen_biguint_below_spec g pos (hi - lo) fuel).1]
        omega
  · intro v h
    unfold gen_biguint_range at h
    split at h
    · cases h
    · rename_i hlt
      split at h
      · rename_i hlo
        have := (gen_biguint_below_spec g pos hi fuel).2 v h
        omega
      · rw [RandResult.map_eq_ok] at h
        obtain ⟨u, hu, hv⟩ := h
        have := (gen_biguint_below_spec g pos (hi - lo) fuel).2 u hu
        omega
  · intro hlo hlt
    unfold gen_biguint_range
    rw [if_neg (by omega), if_pos hlo]
  · intro hlo hlt
    unfold gen_biguint_range
    rw [if_neg (by omega), if_neg hlo]

/-- Witness for C6 at `lo = 2`, `hi = 4` with the all-zero random source. -/
theorem claim_C6_witness :
    gen_biguint_range (fun _ => 0) 0 2 4 1 = .ok 2 ∧ 2 ≤ 2 ∧ 2 < 4 :=
  ⟨by decide, (claim_C6_gen_biguint_range (fun _ => 0) 0 2 4 1).2.1 2 (by decide)⟩

/-- C7: `gen_bigint_range` fails exactly when `lo ≥ hi`; it selects one of
three delegation cases on the signs of the bounds; and every returned value
`v` satisfies `lo ≤ v < hi`. -/
theorem claim_C7_gen_bigint_range (g : Nat → Nat) (pos : Nat) (lo hi : Int) (fuel : Nat) :
    (gen_bigint_range g pos lo hi fuel = .fail ↔ hi ≤ lo) ∧
    (∀ v, gen_bigint_range g pos lo hi fuel = .ok v → lo ≤ v ∧ v < hi) ∧
    (lo = 0 → lo < hi → gen_bigint_range g pos lo hi fuel =
      (gen_biguint_below g pos hi.natAbs fuel).map (fun v : Nat => (v : Int))) ∧
    (lo ≠ 0 → hi = 0 → lo < hi → gen_bigint_range g pos lo hi fuel =
      (gen_biguint_below g pos lo.natAbs fuel).map (fun v : Nat => lo + (v : Int))) ∧
    (lo ≠ 0 → hi ≠ 0 → lo < hi → gen_bigint_range g pos lo hi fuel =
      (gen_biguint_below g pos (hi - lo).natAbs fuel).map (fun v : Nat => lo + (v : Int))) := by
  refine ⟨?_, ?_, ?_, ?_, ?_⟩
  · unfold gen_bigint_range
    split
    · simp
      omega
    · rename_i hlt
      split
      · rename_i hlo
        rw [RandResult.map_eq_fail, (gen_biguint_below_spec g pos hi.natAbs fuel).1]
        constructor
        · intro h
          omega
        · intro h
          omega
      · rename_i hlo
        split
        · rename_i hhi
          rw [RandResult.map_eq_fail, (gen_biguint_below_spec g pos lo.natAbs fuel).1]
          constructor
          · intro h
            omega
          · intro h
            omega
        · rename_i hhi
          rw [RandResult.map_eq_fail,
            (gen_biguint_below_spec g pos (hi - lo).natAbs fuel).1]
          constructor
          · intro h
            omega
          · intro h
            omega
  · intro v h
    unfold gen_bigint_range at h
    split at h
    · cases h
    · rename_i hlt
      split at h
      · rename_i hlo
        rw [RandResult.map_eq_ok] at h
        obtain ⟨u, hu, hv⟩ := h
        have := (gen_biguint_below_spec g pos hi.natAbs fuel).2 u hu
        omega
      · rename_i hlo
        split at h
        · rename_i hhi
          rw [RandResult.map_eq_ok] at h
          obtain ⟨u, hu, hv⟩ := h
          have := (gen_biguint_below_spec g pos lo.natAbs fuel).2 u hu
          omega
        · rename_i hhi
          rw [RandResult.map_eq_ok] at h
          obtain ⟨u, hu, hv⟩ := h
          have := (gen_biguint_below_spec g pos (hi - lo).natAbs fuel).2 u hu
          omega
  · intro hlo hlt
    unfold gen_bigint_range
    rw [if_neg (by omega), if_pos hlo]
  · intro hlo hhi hlt
    unfold gen_bigint_range
    rw [if_neg (by omega), if_neg hlo, if_pos hhi]
  · intro hlo hhi hlt
    unfold gen_bigint_range
    rw [if_neg (by omega), if_neg hlo, if_neg hhi]

/-- Witness for C7 at `lo = -2`, `hi = 3` with the all-zero random source. -/
theorem claim_C7_witness :
    gen_bigint_range (fun _ => 0) 0 (-2) 3 1 = .ok (-2) ∧ (-2 : Int) ≤ -2 ∧ (-2 : Int) < 3 :=
  ⟨by decide, (claim_C7_gen_bigint_range (fun _ => 0) 0 (-2) 3 1).2.1 (-2) (by decide)⟩

/-- C8: For both adapters and every `low ≤ high`, `new_inclusive low high`
builds exactly the sampler state of `new low (high + 1)` (same `base`, same
`len`), and consequently every sample it produces lies in the inclusive
interval `[low, high]`. -/
theorem claim_C8_new_inclusive (lowN highN : Nat) (lowZ highZ : Int) :
    (lowN ≤ highN →
      UniformBigUint.new_inclusive lowN highN = UniformBigUint.new lowN (highN + 1)) ∧
    (lowZ ≤ highZ →
      UniformBigInt.new_inclusive lowZ highZ = UniformBigInt.new lowZ (highZ + 1)) ∧
    (∀ u : UniformBigUint, lowN ≤ highN →
      UniformBigUint.new_inclusive lowN highN = some u →
      ∀ g pos fuel v, u.sample g pos fuel = .ok v → lowN ≤ v ∧ v ≤ highN) ∧
    (∀ u : UniformBigInt, lowZ ≤ highZ →
      UniformBigInt.new_inclusive lowZ highZ = some u →
      ∀ g pos fuel v, u.sample g pos fuel = .ok v → lowZ ≤ v ∧ v ≤ highZ) := by
  refine ⟨?_, ?_, ?_, ?_⟩
  · intro hle
    unfold UniformBigUint.new_inclusive
    rw [if_pos hle]
  · intro hle
    unfold UniformBigInt.new_inclusive
    rw [if_pos hle]
  · intro u hle hnew g pos fuel v hs
    unfold UniformBigUint.new_inclusive at hnew
    rw [if_pos hle] at hnew
    unfold UniformBigUint.new at hnew
    rw [if_pos (by omega)] at hnew
    cases hnew
    unfold UniformBigUint.sample at hs
    rw [RandResult.map_eq_ok] at hs
    obtain ⟨m, hm, hv⟩ := hs
    have := (gen_biguint_below_spec g pos _ fuel).2 m hm
    simp only at this hv
    omega
  · intro u hle hnew g pos fuel v hs
    unfold UniformBigInt.new_inclusive at hnew
    rw [if_pos hle] at hnew
    unfold UniformBigInt.new at hnew
    rw [if_pos (by omega)] at hnew
    cases hnew
    unfold UniformBigInt.sample at hs
    rw [RandResult.map_eq_ok] at hs
    obtain ⟨m, hm, hv⟩ := hs
    have := (gen_biguint_below_spec g pos _ fuel).2 m hm
    simp only at this hv
    omega

/-- Witness for C8 at `(3, 5)` (unsigned), `(-1, 2)` (signed), sampling with
the all-zero random source. -/
theorem claim_C8_witness :
    UniformBigUint.new_inclusive 3 5 = UniformBigUint.new 3 (5 + 1) ∧
    UniformBigInt.new_inclusive (-1) 2 = UniformBigInt.new (-1) (2 + 1) ∧
    (3 ≤ 3 ∧ 3 ≤ 5) :=
  ⟨(claim_C8_new_inclusive 3 5 (-1) 2).1 (by decide),
   (claim_C8_new_inclusive 3 5 (-1) 2).2.1 (by decide),
   (claim_C8_new_inclusive 3 5 (-1) 2).2.2.1 ⟨3, 3⟩ (by decide) (by decide)
     (fun _ => 0) 0 1 3 (by decide)⟩

/-- C9: Every sampler built by `new` or `new_inclusive` (unsigned or signed)
has nonzero span `len`, so `sample` can never hit `gen_biguint_below`'s
zero-bound failure, and every sampled value lies in `[base, base + len)`. -/
theorem claim_C9_sampler_safety :
    (∀ (low high : Nat) (u : UniformBigUint),
      UniformBigUint.new low high = some u ∨
        UniformBigUint.new_inclusive low high = some u →
      u.len ≠ 0 ∧ (∀ g pos fuel, u.sample g pos fuel ≠ .fail) ∧
      (∀ g pos fuel v, u.sample g pos fuel = .ok v → u.base ≤ v ∧ v < u.base + u.len)) ∧
    (∀ (low high : Int) (u : UniformBigInt),
      UniformBigInt.new low high = some u ∨
        UniformBigInt.new_inclusive low high = some u →
      u.len ≠ 0 ∧ (∀ g pos fuel, u.sample g pos fuel ≠ .fail) ∧
      (∀ g pos fuel v, u.sample g pos fuel = .ok v →
        u.base ≤ v ∧ v < u.base + (u.len : Int))) := by
  have hNnew : ∀ (low high : Nat) (u : UniformBigUint),
      UniformBigUint.new low high = some u → u.len ≠ 0 := by
    intro low high u h
    unfold UniformBigUint.new at h
    split at h
    · cases h
      simp only
      omega
    · cases h
  have hZnew : ∀ (low high : Int) (u : UniformBigInt),
      UniformBigInt.new low high = some u → u.len ≠ 0 := by
    intro low high u h
    unfold UniformBigInt.new at h
    split at h
    · cases h
      simp only
      rename_i hlt
      omega
    · cases h
  have hNlen : ∀ (low high : Nat) (u : UniformBigUint),
      UniformBigUint.new low high = some u ∨
        UniformBigUint.new_inclusive low high = some u → u.len ≠ 0 := by
    intro low high u h
    rcases h with h | h
    · exact hNnew low high u h
    · unfold UniformBigUint.new_inclusive at h
      split at h
      · exact hNnew low (high + 1) u h
      · cases h
  have hZlen : ∀ (low high : Int) (u : UniformBigInt),
      UniformBigInt.new low high = some u ∨
        UniformBigInt.new_inclusive low high = some u → u.len ≠ 0 := by
    intro low high u h
    rcases h with h | h
    · exact hZnew low high u h
    · unfold UniformBigInt.new_inclusive at h
      split at h
      · exact hZnew low (high + 1) u h
      · cases h
  constructor
  · intro low high u h
    refine ⟨hNlen low high u h, ?_, ?_⟩
    · intro g pos fuel hfail
      unfold UniformBigUint.sample at hfail
      rw [RandResult.map_eq_fail, (gen_biguint_below_spec g pos _ fuel).1] at hfail
      exact hNlen low high u h hfail
    · intro g pos fuel v hs
      unfold UniformBigUint.sample at hs
      rw [RandResult.map_eq_ok] at hs
      obtain ⟨m, hm, hv⟩ := hs
      have := (gen_biguint_below_spec g pos _ fuel).2 m hm
      omega
  · intro low high u h
    refine ⟨hZlen low high u h, ?_, ?_⟩
    · intro g pos fuel hfail
      unfold UniformBigInt.sample at hfail
      rw [RandResult.map_eq_fail, (gen_biguint_below_spec g pos _ fuel).1] at hfail
      exact hZlen low high u h hfail
    · intro g pos fuel v hs
      unfold UniformBigInt.sample at hs
      rw [RandResult.map_eq_ok] at hs
      obtain ⟨m, hm, hv⟩ := hs
      have := (gen_biguint_below_spec g pos _ fuel).2 m hm
      omega

/-- Witness for C9: the sampler from `new 1 3` has span `2`, does not fail,
and the all-zero random source yields the in-range sample `1`. -/
theorem claim_C9_witness :
    (⟨1, 2⟩ : UniformBigUint).len ≠ 0 ∧ 1 ≤ 1 ∧ 1 < 1 + 2 :=
  ⟨(claim_C9_sampler_safety.1 1 3 ⟨1, 2⟩ (Or.inl (by decide))).1,
    (claim_C9_sampler_safety.1 1 3 ⟨1, 2⟩ (Or.inl (by decide))).2.2
      (fun _ => 0) 0 1 1 (by decide)⟩

end NumBigint
